import Mathlib

/-!
# Verification of the geospatial S2-index benchmark

A shallow embedding of the core of the `geospatial` repository: the covering
policy, the ancestor enumeration, the query translators for the relational
backend, the sorted-file (sstable) posting index reader, and the benchmark
driver loop, together with theorems settling the specification claims.

Cell identifiers are modelled as quadtree addresses (a face of the cube plus
the list of child indices down the tree), which realises the black-box cell
interface of the external geometry library: `level`, `parent`, the uint64
encoding, `rangeMin`/`rangeMax` and the canonical hex token.
-/

namespace Geospatial

/-- A hierarchical cell identifier: one of the 6 cube faces plus the path of
quadtree child indices.  The level of the cell is the length of the path. -/
structure CellID where
  face : Fin 6
  path : List (Fin 4)
deriving DecidableEq, Repr

/-- `Level()` of the external cell interface: depth in the quadtree. -/
def CellID.level (c : CellID) : Nat := c.path.length

/-- `Parent(l)` of the external cell interface: the ancestor at level `l`
(the first `l` steps of the path). -/
def CellID.parent (c : CellID) (l : Nat) : CellID := ⟨c.face, c.path.take l⟩

/-- `a` is a strict ancestor of `c`: a coarser cell whose subtree holds `c`. -/
def isStrictAncestor (a c : CellID) : Prop :=
  a.level < c.level ∧ c.parent a.level = a

instance (a c : CellID) : Decidable (isStrictAncestor a c) := by
  unfold isStrictAncestor; infer_instance

theorem parent_level (c : CellID) (l : Nat) :
    (c.parent l).level = min l c.level := by
  simp [CellID.parent, CellID.level, List.length_take]

theorem parent_level_of_lt {c : CellID} {l : Nat} (h : l < c.level) :
    (c.parent l).level = l := by
  rw [parent_level]; omega

theorem parent_parent (c : CellID) (l k : Nat) :
    (c.parent l).parent k = c.parent (min k l) := by
  simp [CellID.parent, List.take_take]

theorem parent_parent_of_le (c : CellID) {l k : Nat} (h : k ≤ l) :
    (c.parent l).parent k = c.parent k := by
  rw [parent_parent, min_eq_left h]

theorem exists_parent_iff_strictAncestor {x c : CellID} :
    (∃ k, k < c.level ∧ x = c.parent k) ↔ isStrictAncestor x c := by
  constructor
  · rintro ⟨k, hk, rfl⟩
    refine ⟨?_, ?_⟩
    · rw [parent_level_of_lt hk]; exact hk
    · rw [parent_level_of_lt hk]
  · rintro ⟨hlt, heq⟩
    exact ⟨x.level, hlt, heq.symm⟩

/-- The inner walk of `ancestorCells`: starting from fuel `l`, visit
`c.Parent(l-1), c.Parent(l-2), …, c.Parent(0)`, appending each parent not yet
seen and stopping the walk at the first parent already in the seen set.
Mirrors the `for l := c.Level() - 1; l >= 0; l--` loop of the source. -/
def ancWalk (c : CellID) : Nat → List CellID → List CellID → List CellID × List CellID
  | 0, anc, seen => (anc, seen)
  | l + 1, anc, seen =>
    let a := c.parent l
    if a ∈ seen then (anc, seen)
    else ancWalk c l (anc ++ [a]) (a :: seen)

/-- `ancestorCells` from the source: the set of cells containing the given
cells, maintained as an append-ordered list with a seen set. -/
def ancestorCells (cells : List CellID) : List CellID :=
  (cells.foldl (fun acc c => ancWalk c c.level acc.1 acc.2) ([], [])).1

/-- Elements of the seen set after a walk: old ones, or parents of `c` below
the initial fuel. -/
theorem ancWalk_seen_sound (c : CellID) :
    ∀ fuel anc seen x, x ∈ (ancWalk c fuel anc seen).2 →
      x ∈ seen ∨ ∃ k, k < fuel ∧ x = c.parent k := by
  intro fuel
  induction fuel with
  | zero => intro anc seen x hx; exact Or.inl hx
  | succ l ih =>
    intro anc seen x hx
    rw [ancWalk] at hx
    by_cases hmem : c.parent l ∈ seen
    · simp only [hmem, if_pos] at hx
      exact Or.inl hx
    · simp only [hmem, if_neg, not_false_iff] at hx
      rcases ih _ _ _ hx with h | ⟨k, hk, rfl⟩
      · rcases List.mem_cons.mp h with rfl | h
        · exact Or.inr ⟨l, Nat.lt_succ_self l, rfl⟩
        · exact Or.inl h
      · exact Or.inr ⟨k, Nat.lt_succ_of_lt hk, rfl⟩

/-- Elements of the ancestor list after a walk: old ones, or parents of `c`
below the initial fuel. -/
theorem ancWalk_anc_sound (c : CellID) :
    ∀ fuel anc seen x, x ∈ (ancWalk c fuel anc seen).1 →
      x ∈ anc ∨ ∃ k, k < fuel ∧ x = c.parent k := by
  intro fuel
  induction fuel with
  | zero => intro anc seen x hx; exact Or.inl hx
  | succ l ih =>
    intro anc seen x hx
    rw [ancWalk] at hx
    by_cases hmem : c.parent l ∈ seen
    · simp only [hmem, if_pos] at hx
      exact Or.inl hx
    · simp only [hmem, if_neg, not_false_iff] at hx
      rcases ih _ _ _ hx with h | ⟨k, hk, rfl⟩
      · rcases List.mem_append.mp h with h | h
        · exact Or.inl h
        · simp only [List.mem_singleton] at h
          exact Or.inr ⟨l, Nat.lt_succ_self l, h⟩
      · exact Or.inr ⟨k, Nat.lt_succ_of_lt hk, rfl⟩

/-- The seen set only grows along a walk. -/
theorem ancWalk_seen_mono (c : CellID) :
    ∀ fuel anc seen x, x ∈ seen → x ∈ (ancWalk c fuel anc seen).2 := by
  intro fuel
  induction fuel with
  | zero => intro anc seen x hx; exact hx
  | succ l ih =>
    intro anc seen x hx
    rw [ancWalk]
    by_cases hmem : c.parent l ∈ seen
    · simp only [hmem, if_pos]; exact hx
    · simp only [hmem, if_neg, not_false_iff]
      exact ih _ _ _ (List.mem_cons_of_mem _ hx)

/-- Closure: every strict ancestor of a member of the set is in the set. -/
def AncClosed (seen : List CellID) : Prop :=
  ∀ a ∈ seen, ∀ k, k < a.level → a.parent k ∈ seen

/-- The main walk lemma.  `seenInit` is the seen set at the start of the walk
for `c`; the closure property holds of it, and the walk has already recorded
the parents of `c` at all levels of `[fuel, c.level)`.  After the walk, the
seen set and ancestor list agree, remain duplicate-free, the closure property
is restored, and every strict ancestor of `c` is present. -/
theorem ancWalk_main (c : CellID) :
    ∀ fuel anc seen seenInit,
      fuel ≤ c.level →
      (∀ x ∈ seenInit, x ∈ seen) →
      AncClosed seenInit →
      (∀ x ∈ seen, x ∈ seenInit ∨ ∃ j, fuel ≤ j ∧ j < c.level ∧ x = c.parent j) →
      (∀ j, fuel ≤ j → j < c.level → c.parent j ∈ seen) →
      (∀ x, x ∈ seen ↔ x ∈ anc) →
      anc.Nodup →
      (AncClosed (ancWalk c fuel anc seen).2 ∧
        (∀ k, k < c.level → c.parent k ∈ (ancWalk c fuel anc seen).2) ∧
        (∀ x ∈ seen, x ∈ (ancWalk c fuel anc seen).2) ∧
        (∀ x, x ∈ (ancWalk c fuel anc seen).2 ↔ x ∈ (ancWalk c fuel anc seen).1) ∧
        (ancWalk c fuel anc seen).1.Nodup) := by
  intro fuel
  induction fuel with
  | zero =>
    intro anc seen seenInit _ hsub hclosed hnew hhave hsync hnodup
    refine ⟨?_, ?_, fun x hx => hx, hsync, hnodup⟩
    · intro a ha k hk
      rcases hnew a ha with h0 | ⟨j, _, hj, rfl⟩
      · exact hsub _ (hclosed a h0 k hk)
      · rw [parent_level_of_lt hj] at hk
        rw [parent_parent_of_le c (Nat.le_of_lt hk)]
        exact hhave k (Nat.zero_le k) (Nat.lt_trans hk hj)
    · exact fun k hk => hhave k (Nat.zero_le k) hk
  | succ l ih =>
    intro anc seen seenInit hfuel hsub hclosed hnew hhave hsync hnodup
    have hlc : l < c.level := hfuel
    rw [ancWalk]
    by_cases hmem : c.parent l ∈ seen
    · simp only [hmem, if_pos]
      -- The walk stops: the parent at level `l` was recorded by an earlier
      -- walk, so it and all its own ancestors are already present.
      have hInit : c.parent l ∈ seenInit := by
        rcases hnew _ hmem with h0 | ⟨j, hj1, hj2, hj3⟩
        · exact h0
        · exfalso
          have h1 : (c.parent l).level = l := parent_level_of_lt hlc
          have h2 : (c.parent j).level = j := parent_level_of_lt hj2
          rw [hj3, h2] at h1
          omega
      have hlow : ∀ k, k ≤ l → c.parent k ∈ seen := by
        intro k hk
        rcases Nat.lt_or_ge k l with hkl | hkl
        · have := hclosed _ hInit k (by rw [parent_level_of_lt hlc]; exact hkl)
          rw [parent_parent_of_le c (Nat.le_of_lt hkl)] at this
          exact hsub _ this
        · have : k = l := Nat.le_antisymm hk hkl
          subst this; exact hmem
      have havAll : ∀ k, k < c.level → c.parent k ∈ seen := by
        intro k hk
        rcases Nat.lt_or_ge k (l + 1) with hkl | hkl
        · exact hlow k (Nat.lt_succ_iff.mp hkl)
        · exact hhave k hkl hk
      refine ⟨?_, havAll, fun x hx => hx, hsync, hnodup⟩
      intro a ha k hk
      rcases hnew a ha with h0 | ⟨j, _, hj2, rfl⟩
      · exact hsub _ (hclosed a h0 k hk)
      · rw [parent_level_of_lt hj2] at hk
        rw [parent_parent_of_le c (Nat.le_of_lt hk)]
        exact havAll k (Nat.lt_trans hk hj2)
    · simp only [hmem, if_neg, not_false_iff]
      have hna : c.parent l ∉ anc := fun h => hmem ((hsync _).mpr h)
      have := ih (anc ++ [c.parent l]) (c.parent l :: seen) seenInit
        (Nat.le_of_succ_le hfuel)
        (fun x hx => List.mem_cons_of_mem _ (hsub x hx))
        hclosed
        (by
          intro x hx
          rcases List.mem_cons.mp hx with rfl | hx
          · exact Or.inr ⟨l, le_refl l, hlc, rfl⟩
          · rcases hnew x hx with h0 | ⟨j, hj1, hj2, hj3⟩
            · exact Or.inl h0
            · exact Or.inr ⟨j, Nat.le_of_succ_le hj1, hj2, hj3⟩)
        (by
          intro j hj1 hj2
          rcases Nat.lt_or_ge j (l + 1) with hjl | hjl
          · have : j = l := by omega
            subst this; exact List.mem_cons_self _ _
          · exact List.mem_cons_of_mem _ (hhave j hjl hj2))
        (by
          intro x
          simp only [List.mem_cons, List.mem_append, List.mem_singleton]
          rw [hsync x]
          tauto)
        (by
          simp only [List.nodup_append, List.nodup_cons, List.not_mem_nil,
            not_false_iff, List.nodup_nil, and_true, List.disjoint_singleton]
          exact ⟨hnodup, trivial, hna⟩)
      exact ⟨this.1, this.2.1,
        fun x hx => this.2.2.1 x (List.mem_cons_of_mem _ hx),
        this.2.2.2.1, this.2.2.2.2⟩

/-- Soundness of the fold: every enumerated cell is a strict ancestor of some
input cell (or was already in the accumulator). -/
theorem ancestorCells_fold_sound :
    ∀ (cells : List CellID) (anc seen : List CellID) (x : CellID),
      x ∈ (cells.foldl (fun acc c => ancWalk c c.level acc.1 acc.2) (anc, seen)).1 →
      x ∈ anc ∨ ∃ c ∈ cells, ∃ k, k < c.level ∧ x = c.parent k := by
  intro cells
  induction cells with
  | nil => intro anc seen x hx; exact Or.inl hx
  | cons c cs ih =>
    intro anc seen x hx
    simp only [List.foldl_cons] at hx
    rcases ih _ _ _ hx with h | ⟨d, hd, k, hk, rfl⟩
    · rcases ancWalk_anc_sound c c.level anc seen x h with h | ⟨k, hk, rfl⟩
      · exact Or.inl h
      · exact Or.inr ⟨c, List.mem_cons_self c cs, k, hk, rfl⟩
    · exact Or.inr ⟨d, List.mem_cons_of_mem c hd, k, hk, rfl⟩

/-- The fold invariant: seen/ancestor synchronisation, no duplicates,
closure, monotonicity, and completeness for all processed cells. -/
theorem ancestorCells_fold_main :
    ∀ (cells : List CellID) (anc seen : List CellID),
      (∀ x, x ∈ seen ↔ x ∈ anc) → anc.Nodup → AncClosed seen →
      ((∀ x, x ∈ (cells.foldl (fun acc c => ancWalk c c.level acc.1 acc.2) (anc, seen)).2 ↔
          x ∈ (cells.foldl (fun acc c => ancWalk c c.level acc.1 acc.2) (anc, seen)).1) ∧
        (cells.foldl (fun acc c => ancWalk c c.level acc.1 acc.2) (anc, seen)).1.Nodup ∧
        (∀ x ∈ seen, x ∈ (cells.foldl (fun acc c => ancWalk c c.level acc.1 acc.2) (anc, seen)).2) ∧
        (∀ c ∈ cells, ∀ k, k < c.level →
          c.parent k ∈ (cells.foldl (fun acc c => ancWalk c c.level acc.1 acc.2) (anc, seen)).2)) := by
  intro cells
  induction cells with
  | nil =>
    intro anc seen hsync hnodup _
    exact ⟨hsync, hnodup, fun x hx => hx, fun c hc => absurd hc (List.not_mem_nil c)⟩
  | cons c cs ih =>
    intro anc seen hsync hnodup hclosed
    have hw := ancWalk_main c c.level anc seen seen (le_refl _)
      (fun x hx => hx) hclosed (fun x hx => Or.inl hx)
      (fun j hj1 hj2 => absurd (Nat.lt_of_le_of_lt hj1 hj2) (lt_irrefl _))
      hsync hnodup
    obtain ⟨hclosed', hpar', hmono', hsync', hnodup'⟩ := hw
    have := ih (ancWalk c c.level anc seen).1 (ancWalk c c.level anc seen).2
      hsync' hnodup' hclosed'
    simp only [List.foldl_cons]
    refine ⟨this.1, this.2.1, ?_, ?_⟩
    · exact fun x hx => this.2.2.1 x (hmono' x hx)
    · intro d hd k hk
      rcases List.mem_cons.mp hd with rfl | hd
      · exact this.2.2.1 _ (hpar' k hk)
      · exact this.2.2.2 d hd k hk

/-- Characterisation of `ancestorCells`: its members are exactly the strict
ancestors of the input cells. -/
theorem mem_ancestorCells_iff (cells : List CellID) (x : CellID) :
    x ∈ ancestorCells cells ↔ ∃ c ∈ cells, isStrictAncestor x c := by
  constructor
  · intro hx
    rcases ancestorCells_fold_sound cells [] [] x hx with h | ⟨c, hc, k, hk, rfl⟩
    · cases h
    · exact ⟨c, hc, exists_parent_iff_strictAncestor.mp ⟨k, hk, rfl⟩⟩
  · rintro ⟨c, hc, ha⟩
    obtain ⟨k, hk, rfl⟩ := exists_parent_iff_strictAncestor.mpr ha
    have := ancestorCells_fold_main cells [] []
      (fun x => by simp) List.nodup_nil (fun a ha => absurd ha (List.not_mem_nil a))
    exact (this.1 _).mp (this.2.2.2 c hc k hk)

/-- The output of `ancestorCells` never repeats a cell. -/
theorem ancestorCells_nodup (cells : List CellID) : (ancestorCells cells).Nodup :=
  (ancestorCells_fold_main cells [] []
    (fun x => by simp) List.nodup_nil (fun a ha => absurd ha (List.not_mem_nil a))).2.1

/-- The level-0 cell of face 0. -/
def cellF0 : CellID := ⟨0, []⟩

/-- The first level-1 child of `cellF0`. -/
def cellF0c0 : CellID := ⟨0, [0]⟩

/-- The second level-1 child of `cellF0`. -/
def cellF0c1 : CellID := ⟨0, [1]⟩

/-- Claim C2, counterexample: when one input cell is a strict ancestor of
another input cell, `ancestorCells` returns that ancestor even though it is a
member of the input list, contradicting the claim that no element of the
input list is ever returned. -/
theorem ancestorCells_returns_input_member :
    ancestorCells [cellF0c0, cellF0] = [cellF0] ∧ cellF0 ∈ [cellF0c0, cellF0] := by
  decide

/-- Claim C2, amended: for every list of input cells in which no cell is a
strict ancestor of another (duplicates allowed, and true of every covering),
`ancestorCells` returns a list containing no element of the input list. -/
theorem ancestorCells_disjoint_from_input :
    ∀ (cells : List CellID),
      (∀ a ∈ cells, ∀ c ∈ cells, ¬ isStrictAncestor a c) →
      ∀ x ∈ ancestorCells cells, x ∉ cells := by
  intro cells h x hx hxin
  rcases (mem_ancestorCells_iff cells x).mp hx with ⟨c, hc, ha⟩
  exact h x hxin c hc ha

/-- Witness for the amended C2 theorem at a duplicate-bearing antichain. -/
theorem ancestorCells_disjoint_from_input_witness :
    cellF0 ∉ [cellF0c0, cellF0c1, cellF0c0] :=
  ancestorCells_disjoint_from_input [cellF0c0, cellF0c1, cellF0c0]
    (by decide) cellF0 (by decide)

/-- Claim C3: `ancestorCells` returns every strict ancestor of every input
cell, each appearing exactly once (no duplicates), and on any permutation of
the input its output is equal as a set to the output on the original order. -/
theorem ancestorCells_complete_nodup_permInvariant :
    ∀ (cells cellsPerm : List CellID), cells.Perm cellsPerm →
      ((∀ c ∈ cells, ∀ a, isStrictAncestor a c → a ∈ ancestorCells cells) ∧
        (ancestorCells cells).Nodup ∧
        (∀ x, x ∈ ancestorCells cells ↔ x ∈ ancestorCells cellsPerm)) := by
  intro cells cellsPerm hperm
  refine ⟨?_, ancestorCells_nodup cells, ?_⟩
  · intro c hc a ha
    exact (mem_ancestorCells_iff cells a).mpr ⟨c, hc, ha⟩
  · intro x
    rw [mem_ancestorCells_iff, mem_ancestorCells_iff]
    constructor
    · rintro ⟨c, hc, ha⟩; exact ⟨c, hperm.mem_iff.mp hc, ha⟩
    · rintro ⟨c, hc, ha⟩; exact ⟨c, hperm.mem_iff.mpr hc, ha⟩

/-- Witness for the C3 theorem at a concrete two-cell covering and its swap. -/
theorem ancestorCells_complete_nodup_permInvariant_witness :
    (∀ c ∈ [cellF0c0, cellF0c1], ∀ a, isStrictAncestor a c →
        a ∈ ancestorCells [cellF0c0, cellF0c1]) ∧
      (ancestorCells [cellF0c0, cellF0c1]).Nodup ∧
      (∀ x, x ∈ ancestorCells [cellF0c0, cellF0c1] ↔
        x ∈ ancestorCells [cellF0c1, cellF0c0]) :=
  ancestorCells_complete_nodup_permInvariant [cellF0c0, cellF0c1]
    [cellF0c1, cellF0c0] (List.Perm.swap cellF0c1 cellF0c0 [])

/-! ## The uint64 encoding, range bounds and hex tokens of cells

The external library encodes a cell as 3 face bits, the 2-bit child indices
of the path, a trailing set bit, and zero padding, inside 64 bits; its token
is the 16-digit zero-padded lowercase hex rendering with trailing zero digits
stripped ("X" for the zero id).  `rangeMin`/`rangeMax` are the id with the
bits below the trailing set bit cleared respectively set. -/

/-- The path digits read as a base-4 number. -/
def pathBits (p : List (Fin 4)) : Nat := p.foldl (fun acc d => acc * 4 + d.val) 0

/-- The lowest set bit of the encoded cell id. -/
def CellID.lsb (c : CellID) : Nat := 2 ^ (60 - 2 * c.level)

/-- The uint64 cell id of the external library. -/
def cellIdNat (c : CellID) : Nat :=
  c.face.val * 2 ^ 61 + pathBits c.path * 2 ^ (61 - 2 * c.level) + c.lsb

/-- `RangeMin()` as an id: first leaf descendant. -/
def rangeMinNat (c : CellID) : Nat := cellIdNat c - c.lsb + 1

/-- `RangeMax()` as an id: last leaf descendant. -/
def rangeMaxNat (c : CellID) : Nat := cellIdNat c + c.lsb - 1

/-- Lowercase hex digit of a value below 16. -/
def hexDigit (n : Nat) : Char :=
  if n < 10 then Char.ofNat (48 + n) else Char.ofNat (87 + n)

/-- The 16 hex digits of a 64-bit value, most significant first. -/
def hexChars (n : Nat) : List Char :=
  (List.range 16).map (fun i => hexDigit (n / 16 ^ (15 - i) % 16))

/-- `ToToken()`: zero-padded hex with trailing zero digits stripped; the zero
id renders as "X". -/
def toToken (n : Nat) : String :=
  let s := (((hexChars n).reverse.dropWhile (fun ch => ch = Char.ofNat 48)).reverse)
  if s.isEmpty then "X" else String.mk s

/-- The BETWEEN clause emitted per covering cell by the sorted-token
relational translation of *contains* (`containsQ` of the source). -/
def betweenClause (c : CellID) : String :=
  "s2 BETWEEN \x27" ++ toToken (rangeMinNat c) ++ "\x27 AND \x27" ++
    toToken (rangeMaxNat c) ++ "\x27"

/-- `containsQ`: the buffer-building loop of the source, which writes the
clause of each covering cell preceded by an OR separator except for the
first.  The boolean component mirrors the loop's `i != 0` test. -/
def containsQ (cells : List CellID) : String :=
  (cells.foldl
    (fun (acc : String × Bool) c =>
      (acc.1 ++ (if acc.2 then "" else " OR ") ++ betweenClause c, false))
    ("", true)).1

/-- The quoted-token list element written per cell by `containingQ`. -/
def inClauseItem (c : CellID) : String := "\x27" ++ toToken (cellIdNat c) ++ "\x27"

/-- `containingQ`: exact-match IN set over the given cells. -/
def containingQ (cells : List CellID) : String :=
  "s2 IN (" ++
    (cells.foldl
      (fun (acc : String × Bool) c =>
        (acc.1 ++ (if acc.2 then "" else ", ") ++ inClauseItem c, false))
      ("", true)).1 ++ ")"

/-- A disjunction of SQL clauses joined by OR, in list form. -/
def sqlDisjunction (clauses : List String) : String :=
  match clauses with
  | [] => ""
  | c :: cs => cs.foldl (fun acc d => acc ++ " OR " ++ d) c

/-- The clause form the specification ascribes to the relational *contains*
filter: a prefix match `LIKE` on the member cell token itself. -/
def likeClause (c : CellID) : String :=
  "s2 LIKE \x27" ++ toToken (cellIdNat c) ++ "%\x27"

theorem buffer_fold_or (g : CellID → String) :
    ∀ (xs : List CellID) (s : String),
      (xs.foldl (fun (acc : String × Bool) c =>
          (acc.1 ++ (if acc.2 then "" else " OR ") ++ g c, false)) (s, false)).1
        = xs.foldl (fun acc c => acc ++ " OR " ++ g c) s := by
  intro xs
  induction xs with
  | nil => intro s; rfl
  | cons x xs ih => intro s; simp only [List.foldl_cons, if_neg]; exact ih _

/-- Claim C4, counterexample: for the one-cell covering `[cellF0]` the
relational *contains* filter built by `containsQ` is an inclusive BETWEEN
range predicate over the cell's `rangeMin`/`rangeMax` tokens, not the
`LIKE <token>%` prefix-match disjunction the claim describes. -/
theorem containsQ_not_like_form :
    containsQ [cellF0]
        = "s2 BETWEEN \x270000000000000001\x27 AND \x271fffffffffffffff\x27" ∧
      containsQ [cellF0] ≠ sqlDisjunction (List.map likeClause [cellF0]) := by
  constructor
  · decide
  · decide

/-- Claim C4, amended: for every covering `C` the relational *contains*
filter is a disjunction, over the members of `C`, of inclusive range
predicates `s2 BETWEEN '<rangeMin token>' AND '<rangeMax token>'`. -/
theorem containsQ_eq_between_disjunction :
    ∀ (cells : List CellID),
      containsQ cells = sqlDisjunction (cells.map betweenClause) := by
  intro cells
  cases cells with
  | nil => rfl
  | cons c cs =>
    show (cs.foldl _ (("" : String) ++ "" ++ betweenClause c, false)).1 = _
    have h0 : ("" : String) ++ "" ++ betweenClause c = betweenClause c := by
      apply String.ext
      simp [String.data_append]
    rw [h0, buffer_fold_or betweenClause cs (betweenClause c)]
    show _ = (cs.map betweenClause).foldl (fun acc d => acc ++ " OR " ++ d) (betweenClause c)
    rw [List.foldl_map]

/-! ## Covering policy and the relational query builder -/

/-- A query region as the covering policy sees it: either already exactly an
s2 cell (the single-cell shortcut applies), or an arbitrary region for which
the external region coverer produces the given cell list under the configured
budget (a soft limit, so the list may have any length). -/
inductive Region where
  | cell (c : CellID)
  | other (rcCovering : List CellID)

/-- `(*s2IndexConfig).Covering` of the source: a region that is a cell is its
own one-cell covering; otherwise the external covering is used, except that
under a one-cell budget a covering that is not exactly one cell (the region
straddles a cube edge or corner) is rejected as `nil`. -/
def Covering (maxCells : Nat) (r : Region) : Option (List CellID) :=
  match r with
  | .cell c => some [c]
  | .other rc => if maxCells = 1 ∧ rc.length ≠ 1 then none else some rc

/-- The three index query operations. -/
inductive operationType where
  | contains
  | containing
  | intersects

/-- The count expression chosen by `ReadS2`/`RunCRDB`: raw `count(id)` only
under the one-cell budget, `count(distinct(id))` otherwise. -/
def countExpr (maxCells : Nat) : String :=
  if maxCells = 1 then "count(id)" else "count(distinct(id))"

/-- The WHERE clause of `ReadS2` per operation: *contains* is the range
disjunction; *containing* is the IN set over ancestors plus the covering;
*intersects* unions the two without re-adding the covering cells to the
ancestor clause. -/
def whereClause (op : operationType) (covering : List CellID) : String :=
  match op with
  | .contains => containsQ covering
  | .containing => containingQ (ancestorCells covering ++ covering)
  | .intersects => containsQ covering ++ " OR " ++ containingQ (ancestorCells covering)

/-- The SELECT statement built by `ReadS2`. -/
def readS2Query (maxCells : Nat) (op : operationType) (covering : List CellID) : String :=
  ("SELECT " ++ countExpr maxCells ++ " FROM roads_s2_idx WHERE ") ++
    whereClause op covering

/-- Claim C1: whenever the query covering or the index covering has more than
one cell, the relational backend counts distinct object ids (both coverings
come from the same configuration, and a one-cell budget forces both to one
cell); raw `count(id)` is emitted only when both coverings are forced to
exactly one cell. -/
theorem readS2_distinct_counting :
    ∀ (maxCells : Nat) (rQuery rIndex : Region) (qc ic : List CellID),
      Covering maxCells rQuery = some qc → Covering maxCells rIndex = some ic →
      ((1 < qc.length ∨ 1 < ic.length →
          ∀ op, readS2Query maxCells op qc
            = "SELECT count(distinct(id)) FROM roads_s2_idx WHERE "
              ++ whereClause op qc) ∧
        (countExpr maxCells = "count(id)" → qc.length = 1 ∧ ic.length = 1)) := by
  intro maxCells rQuery rIndex qc ic hq hi
  have hlen : ∀ (r : Region) (cov : List CellID), maxCells = 1 →
      Covering maxCells r = some cov → cov.length = 1 := by
    intro r cov h1 hcov
    cases r with
    | cell c => simp [Covering] at hcov; rw [← hcov]; rfl
    | other rc =>
      rw [Covering] at hcov
      by_cases hrc : rc.length = 1
      · simp only [h1, hrc] at hcov ⊢
        simp at hcov
        rw [← hcov, hrc]
      · simp [h1, hrc] at hcov
  by_cases h1 : maxCells = 1
  · have hq1 := hlen rQuery qc h1 hq
    have hi1 := hlen rIndex ic h1 hi
    refine ⟨?_, fun _ => ⟨hq1, hi1⟩⟩
    intro hgt
    rcases hgt with h | h <;> omega
  · constructor
    · intro _ op
      rw [readS2Query, countExpr, if_neg h1]
      have : ("SELECT " ++ "count(distinct(id))" ++ " FROM roads_s2_idx WHERE ")
          = "SELECT count(distinct(id)) FROM roads_s2_idx WHERE " := by decide
      rw [this]
    · intro hcount
      rw [countExpr, if_neg h1] at hcount
      exact absurd hcount (by decide)

/-- Witness for C1: a sixteen-cell budget, a two-cell query covering and a
one-cell index covering select distinct counting. -/
theorem readS2_distinct_counting_witness :
    readS2Query 16 .contains [cellF0c0, cellF0c1]
      = "SELECT count(distinct(id)) FROM roads_s2_idx WHERE "
        ++ whereClause .contains [cellF0c0, cellF0c1] :=
  (readS2_distinct_counting 16 (.other [cellF0c0, cellF0c1]) (.cell cellF0)
    [cellF0c0, cellF0c1] [cellF0] (by decide) rfl).1 (Or.inl (by decide)) .contains

/-! ## The benchmark driver loop

The `latencies` loop of the source, with the external world supplied as
oracles: `cancel` is the interrupt context observed at the top of iteration
`t`, `exec` the backend execution outcome of the `q`-th issued query, and the
road stream a list of (center, rng draw) pairs.  The fields `t`, `q` and
`issued` are instrumentation: they index the oracles and log every issued
query as a (center, level) pair. -/

/-- The outcome of executing one issued query against a backend. -/
inductive ExecResult where
  | skipped
  | failed
  | ok (latencyNanos : Nat) (count : Int)
deriving DecidableEq, Repr

/-- `ReadS2`'s outcome given the covering and the external SQL execution:
a `nil` covering is the skip signal, before any SQL runs. -/
def readS2Exec (cov : Option (List CellID)) (sqlFails : Bool)
    (latencyNanos : Nat) (count : Int) : ExecResult :=
  match cov with
  | none => .skipped
  | some _ => if sqlFails then .failed else .ok latencyNanos count

/-- `(*queryReader).Next` of the source: pull roads until the rng draw keeps
one, and yield that road's first point as the query center. -/
def qrNext (selectivity : Nat) : List (Nat × Nat) → Option (Nat × List (Nat × Nat))
  | [] => none
  | (center, draw) :: rest =>
    if draw < selectivity then some (center, rest) else qrNext selectivity rest

theorem qrNext_length (selectivity : Nat) :
    ∀ (stream rest : List (Nat × Nat)) (c : Nat),
      qrNext selectivity stream = some (c, rest) → rest.length < stream.length := by
  intro stream
  induction stream with
  | nil => intro rest c h; cases h
  | cons p ps ih =>
    intro rest c h
    obtain ⟨a, b⟩ := p
    rw [qrNext] at h
    by_cases hd : b < selectivity
    · simp only [hd, if_pos] at h
      cases h
      exact Nat.lt_succ_self _
    · simp only [hd, if_neg, not_false_iff] at h
      exact Nat.lt_succ_of_lt (ih rest c h)

/-- Driver state: `i` the loop's success counter, `level` the walking level,
`nanos`/`counts` the recorded latency/cardinality histogram entries as
(level, value) pairs, plus the instrumentation fields. -/
structure BenchState where
  i : Nat
  t : Nat
  q : Nat
  level : Int
  nanos : List (Int × Nat)
  counts : List (Int × Int)
  issued : List (Nat × Int)
deriving DecidableEq, Repr

/-- How one pass of the driver loop ended. -/
inductive ExitKind where
  | budget
  | exhausted
  | cancelled
  | errored
deriving DecidableEq, Repr

/-- The per-iteration level adjustment `if level < queryMinLevel { level =
queryMaxLevel }` of the source. -/
def adjLevel (minL maxL lvl : Int) : Int := if lvl < minL then maxL else lvl

/-- The driver loop of `latencies`: check the budget, observe cancellation,
draw the next kept sample point, adjust the level, execute the query, then
either skip (no counter advance, no histogram record), abort on a backend
error, or record the sample and advance. -/
def benchLoop (maxCount : Nat) (minL maxL : Int) (selectivity : Nat)
    (cancel : Nat → Bool) (exec : Nat → ExecResult) :
    List (Nat × Nat) → BenchState → BenchState × ExitKind
  | stream, s =>
    if maxCount ≤ s.i then (s, .budget)
    else if cancel s.t then (s, .cancelled)
    else
      match h : qrNext selectivity stream with
      | none => (s, .exhausted)
      | some (c, rest) =>
        let lvl := adjLevel minL maxL s.level
        match exec s.q with
        | .skipped =>
          benchLoop maxCount minL maxL selectivity cancel exec rest
            { s with
              t := s.t + 1
              q := s.q + 1
              level := lvl - 1
              issued := s.issued ++ [(c, lvl)] }
        | .failed => (s, .errored)
        | .ok lat cnt =>
          benchLoop maxCount minL maxL selectivity cancel exec rest
            { i := s.i + 1
              t := s.t + 1
              q := s.q + 1
              level := lvl - 1
              nanos := s.nanos ++ [(lvl, lat)]
              counts := s.counts ++ [(lvl, cnt)]
              issued := s.issued ++ [(c, lvl)] }
termination_by stream _ => stream.length
decreasing_by
  all_goals exact qrNext_length selectivity stream rest c h

/-- The state at the head of the loop: counter zero, level -1, fresh
histograms. -/
def initBenchState : BenchState := ⟨0, 0, 0, -1, [], [], []⟩

/-- What one pass of `latencies` does after its loop ends. -/
inductive RunOutcome where
  | errorReturn
  | successReturn (s : BenchState)
  | restart (s : BenchState)
deriving DecidableEq, Repr

/-- The return behaviour of a `latencies` pass: a backend error propagates; a
loop cancelled mid-run returns success at the post-loop context check (the
context error is sticky); otherwise the post-loop check either returns
success or falls through to the enclosing restart. -/
def passOutcome (maxCount : Nat) (minL maxL : Int) (selectivity : Nat)
    (cancel : Nat → Bool) (exec : Nat → ExecResult)
    (stream : List (Nat × Nat)) (postCancel : Bool) : RunOutcome :=
  match benchLoop maxCount minL maxL selectivity cancel exec stream initBenchState with
  | (_, .errored) => .errorReturn
  | (s, .cancelled) => .successReturn s
  | (s, _) => if postCancel then .successReturn s else .restart s

section BenchLoopLemmas

variable (maxCount : Nat) (minL maxL : Int) (selectivity : Nat)
variable (cancel : Nat → Bool) (exec : Nat → ExecResult)

theorem benchLoop_cancelled (stream : List (Nat × Nat)) (s : BenchState)
    (hi : s.i < maxCount) (hc : cancel s.t = true) :
    benchLoop maxCount minL maxL selectivity cancel exec stream s = (s, .cancelled) := by
  rw [benchLoop]
  rw [if_neg (Nat.not_le.mpr hi), hc]
  simp

theorem benchLoop_exhausted (stream : List (Nat × Nat)) (s : BenchState)
    (hi : s.i < maxCount) (hc : cancel s.t = false)
    (hq : qrNext selectivity stream = none) :
    benchLoop maxCount minL maxL selectivity cancel exec stream s = (s, .exhausted) := by
  rw [benchLoop]
  rw [if_neg (Nat.not_le.mpr hi), hc]
  simp only [Bool.false_eq_true, if_false]
  split
  · rfl
  · rename_i c rest heq
    rw [hq] at heq
    cases heq

theorem benchLoop_step_skip (stream rest : List (Nat × Nat)) (s : BenchState) (c : Nat)
    (hi : s.i < maxCount) (hc : cancel s.t = false)
    (hq : qrNext selectivity stream = some (c, rest)) (he : exec s.q = .skipped) :
    benchLoop maxCount minL maxL selectivity cancel exec stream s
      = benchLoop maxCount minL maxL selectivity cancel exec rest
          { s with
            t := s.t + 1
            q := s.q + 1
            level := adjLevel minL maxL s.level - 1
            issued := s.issued ++ [(c, adjLevel minL maxL s.level)] } := by
  rw [benchLoop]
  rw [if_neg (Nat.not_le.mpr hi), hc]
  simp only [Bool.false_eq_true, if_false]
  split
  · rename_i heq
    rw [hq] at heq
    cases heq
  · rename_i c' rest' heq
    rw [hq] at heq
    cases heq
    rw [he]

theorem benchLoop_step_ok (stream rest : List (Nat × Nat)) (s : BenchState) (c : Nat)
    (lat : Nat) (cnt : Int)
    (hi : s.i < maxCount) (hc : cancel s.t = false)
    (hq : qrNext selectivity stream = some (c, rest)) (he : exec s.q = .ok lat cnt) :
    benchLoop maxCount minL maxL selectivity cancel exec stream s
      = benchLoop maxCount minL maxL selectivity cancel exec rest
          { i := s.i + 1
            t := s.t + 1
            q := s.q + 1
            level := adjLevel minL maxL s.level - 1
            nanos := s.nanos ++ [(adjLevel minL maxL s.level, lat)]
            counts := s.counts ++ [(adjLevel minL maxL s.level, cnt)]
            issued := s.issued ++ [(c, adjLevel minL maxL s.level)] } := by
  rw [benchLoop]
  rw [if_neg (Nat.not_le.mpr hi), hc]
  simp only [Bool.false_eq_true, if_false]
  split
  · rename_i heq
    rw [hq] at heq
    cases heq
  · rename_i c' rest' heq
    rw [hq] at heq
    cases heq
    rw [he]

/-- Every recorded histogram entry corresponds to one completed success: the
lengths of both histogram logs always equal the success counter. -/
theorem benchLoop_record_lengths :
    ∀ (n : Nat) (stream : List (Nat × Nat)) (s : BenchState), stream.length ≤ n →
      s.nanos.length = s.i → s.counts.length = s.i →
      ((benchLoop maxCount minL maxL selectivity cancel exec stream s).1.nanos.length
          = (benchLoop maxCount minL maxL selectivity cancel exec stream s).1.i ∧
        (benchLoop maxCount minL maxL selectivity cancel exec stream s).1.counts.length
          = (benchLoop maxCount minL maxL selectivity cancel exec stream s).1.i) := by
  intro n
  induction n with
  | zero =>
    intro stream s hn h1 h2
    have hstream : stream = [] := List.eq_nil_of_length_eq_zero (Nat.le_zero.mp hn)
    subst hstream
    rw [benchLoop]
    split
    · exact ⟨h1, h2⟩
    · split
      · exact ⟨h1, h2⟩
      · split
        · exact ⟨h1, h2⟩
        · rename_i heq
          cases heq
  | succ n ih =>
    intro stream s hn h1 h2
    rw [benchLoop]
    split
    · exact ⟨h1, h2⟩
    · split
      · exact ⟨h1, h2⟩
      · split
        · exact ⟨h1, h2⟩
        · rename_i hnc c rest heq
          have hrest : rest.length ≤ n :=
            Nat.lt_succ_iff.mp (Nat.lt_of_lt_of_le
              (qrNext_length selectivity stream rest c heq) hn)
          split
          · exact ih rest _ hrest (by simp [h1]) (by simp [h2])
          · exact ⟨h1, h2⟩
          · exact ih rest _ hrest (by simp [h1]) (by simp [h2])

end BenchLoopLemmas

/-- Claim C6: under a one-cell budget, a region the external coverer cannot
express as a single cell gets a `nil` covering; `ReadS2` turns that into the
skip signal before any SQL executes; and the driver loop treats the skipped
query as a non-error, continuing with the iteration counter and both
histogram logs unchanged. -/
theorem covering_nil_skip_semantics :
    ∀ (rc : List CellID) (sqlFails : Bool) (lat0 : Nat) (cnt0 : Int)
      (maxCount : Nat) (minL maxL : Int) (selectivity : Nat)
      (cancel : Nat → Bool) (exec : Nat → ExecResult)
      (stream rest : List (Nat × Nat)) (s : BenchState) (c : Nat),
      rc.length ≠ 1 →
      s.i < maxCount → cancel s.t = false →
      qrNext selectivity stream = some (c, rest) → exec s.q = .skipped →
      (Covering 1 (.other rc) = none ∧
        readS2Exec (Covering 1 (.other rc)) sqlFails lat0 cnt0 = .skipped ∧
        ∃ s2, benchLoop maxCount minL maxL selectivity cancel exec stream s
            = benchLoop maxCount minL maxL selectivity cancel exec rest s2 ∧
          s2.i = s.i ∧ s2.nanos = s.nanos ∧ s2.counts = s.counts) := by
  intro rc sqlFails lat0 cnt0 maxCount minL maxL selectivity cancel exec
    stream rest s c hrc hi hc hq he
  have hcov : Covering 1 (.other rc) = none := by simp [Covering, hrc]
  refine ⟨hcov, by rw [hcov]; rfl, ?_⟩
  exact ⟨_, benchLoop_step_skip maxCount minL maxL selectivity cancel exec
    stream rest s c hi hc hq he, rfl, rfl, rfl⟩

/-- Witness for C6 at a two-cell external covering under a one-cell budget
and a concrete skipped iteration. -/
theorem covering_nil_skip_semantics_witness :
    Covering 1 (.other [cellF0c0, cellF0c1]) = none :=
  (covering_nil_skip_semantics [cellF0c0, cellF0c1] false 0 0 5 8 20 1
    (fun _ => false) (fun _ => .skipped) [(10, 0)] [] initBenchState 10
    (by decide) (by decide) rfl rfl rfl).1

/-- Claim C7: cancellation is observed at the top of every loop iteration
before the next query is issued (a cancelled iteration returns with the
state, including the issued-query log and both histograms, unchanged); every
recorded sample corresponds to one completed query, and a loop that exits
through cancellation makes the run return success with those samples
retained. -/
theorem benchLoop_cancellation_semantics :
    ∀ (maxCount : Nat) (minL maxL : Int) (selectivity : Nat)
      (cancel : Nat → Bool) (exec : Nat → ExecResult)
      (stream : List (Nat × Nat)) (s : BenchState) (postCancel : Bool),
      ((s.i < maxCount → cancel s.t = true →
          benchLoop maxCount minL maxL selectivity cancel exec stream s
            = (s, .cancelled)) ∧
        ((benchLoop maxCount minL maxL selectivity cancel exec stream
              initBenchState).1.nanos.length
            = (benchLoop maxCount minL maxL selectivity cancel exec stream
                initBenchState).1.i ∧
          (benchLoop maxCount minL maxL selectivity cancel exec stream
              initBenchState).1.counts.length
            = (benchLoop maxCount minL maxL selectivity cancel exec stream
                initBenchState).1.i) ∧
        ((benchLoop maxCount minL maxL selectivity cancel exec stream
              initBenchState).2 = .cancelled →
          passOutcome maxCount minL maxL selectivity cancel exec stream postCancel
            = .successReturn (benchLoop maxCount minL maxL selectivity cancel exec
                stream initBenchState).1)) := by
  intro maxCount minL maxL selectivity cancel exec stream s postCancel
  refine ⟨fun hi hc =>
      benchLoop_cancelled maxCount minL maxL selectivity cancel exec stream s hi hc,
    benchLoop_record_lengths maxCount minL maxL selectivity cancel exec
      stream.length stream initBenchState (le_refl _) rfl rfl, ?_⟩
  intro h
  rw [passOutcome]
  rcases hbl : benchLoop maxCount minL maxL selectivity cancel exec stream
    initBenchState with ⟨sEnd, e⟩
  rw [hbl] at h
  simp only at h
  subst h
  rfl

/-- Witness for C7: a run cancelled at its very first iteration terminates
in the cancelled state with nothing recorded. -/
theorem benchLoop_cancellation_semantics_witness :
    benchLoop 5 8 20 1 (fun _ => true) (fun _ => .skipped) [] initBenchState
      = (initBenchState, .cancelled) :=
  (benchLoop_cancellation_semantics 5 8 20 1 (fun _ => true) (fun _ => .skipped)
    [] initBenchState true).1 (by decide) rfl

/-- Claim C8, counterexample: with `minLevel = 8`, `maxLevel = 9` and two
kept sample points 10 and 20, the issued queries are `(10, 9)` then
`(20, 8)`: level 8 is never queried against the first kept point even though
a second point was drawn, contradicting the claim that every level in
`[minLevel, maxLevel]` is queried against the same kept point before the
next point is drawn. -/
theorem benchmark_levels_walk_across_points :
    (benchLoop 4 8 9 1 (fun _ => false) (fun _ => .ok 5 0)
        [(10, 0), (20, 0)] initBenchState).1.issued = [(10, 9), (20, 8)] ∧
      ((10 : Nat), (8 : Int)) ∉
        (benchLoop 4 8 9 1 (fun _ => false) (fun _ => .ok 5 0)
          [(10, 0), (20, 0)] initBenchState).1.issued := by
  have e1 : benchLoop 4 8 9 1 (fun _ => false) (fun _ => .ok 5 0)
      [(10, 0), (20, 0)] initBenchState
      = benchLoop 4 8 9 1 (fun _ => false) (fun _ => .ok 5 0) [(20, 0)]
          ⟨1, 1, 1, 8, [(9, 5)], [(9, 0)], [(10, 9)]⟩ := by
    rw [benchLoop_step_ok 4 8 9 1 (fun _ => false) (fun _ => .ok 5 0)
      [(10, 0), (20, 0)] [(20, 0)] initBenchState 10 5 0 (by decide) rfl rfl rfl]
    congr 1
  have e2 : benchLoop 4 8 9 1 (fun _ => false) (fun _ => .ok 5 0) [(20, 0)]
      (⟨1, 1, 1, 8, [(9, 5)], [(9, 0)], [(10, 9)]⟩ : BenchState)
      = benchLoop 4 8 9 1 (fun _ => false) (fun _ => .ok 5 0) []
          ⟨2, 2, 2, 7, [(9, 5), (8, 5)], [(9, 0), (8, 0)], [(10, 9), (20, 8)]⟩ := by
    rw [benchLoop_step_ok 4 8 9 1 (fun _ => false) (fun _ => .ok 5 0)
      [(20, 0)] [] ⟨1, 1, 1, 8, [(9, 5)], [(9, 0)], [(10, 9)]⟩ 20 5 0
      (by decide) rfl rfl rfl]
    congr 1
  have e3 : benchLoop 4 8 9 1 (fun _ => false) (fun _ => .ok 5 0) []
      (⟨2, 2, 2, 7, [(9, 5), (8, 5)], [(9, 0), (8, 0)],
        [(10, 9), (20, 8)]⟩ : BenchState)
      = (⟨2, 2, 2, 7, [(9, 5), (8, 5)], [(9, 0), (8, 0)],
          [(10, 9), (20, 8)]⟩, .exhausted) :=
    benchLoop_exhausted 4 8 9 1 (fun _ => false) (fun _ => .ok 5 0) []
      _ (by decide) rfl rfl
  rw [e1, e2, e3]
  decide

/-- Claim C8, amended: each driver iteration draws a new kept sample point
and issues exactly one query against it, at the current level of a cyclic
walk; the walk level stays within `[minLevel, maxLevel]` and steps down one
level per iteration (resetting to `maxLevel` after passing `minLevel`), so
the levels are walked across consecutive kept points, not per kept point. -/
theorem benchmark_one_query_per_point :
    ∀ (maxCount : Nat) (minL maxL : Int) (selectivity : Nat)
      (cancel : Nat → Bool) (exec : Nat → ExecResult)
      (stream rest : List (Nat × Nat)) (s : BenchState) (c : Nat)
      (lat : Nat) (cnt : Int),
      s.i < maxCount → cancel s.t = false →
      qrNext selectivity stream = some (c, rest) → exec s.q = .ok lat cnt →
      minL ≤ maxL → s.level ≤ maxL →
      (benchLoop maxCount minL maxL selectivity cancel exec stream s
          = benchLoop maxCount minL maxL selectivity cancel exec rest
              { i := s.i + 1
                t := s.t + 1
                q := s.q + 1
                level := adjLevel minL maxL s.level - 1
                nanos := s.nanos ++ [(adjLevel minL maxL s.level, lat)]
                counts := s.counts ++ [(adjLevel minL maxL s.level, cnt)]
                issued := s.issued ++ [(c, adjLevel minL maxL s.level)] } ∧
        minL ≤ adjLevel minL maxL s.level ∧ adjLevel minL maxL s.level ≤ maxL) := by
  intro maxCount minL maxL selectivity cancel exec stream rest s c lat cnt
    hi hc hq he hml hlvl
  refine ⟨benchLoop_step_ok maxCount minL maxL selectivity cancel exec
    stream rest s c lat cnt hi hc hq he, ?_, ?_⟩
  · rw [adjLevel]; split <;> omega
  · rw [adjLevel]; split <;> omega

/-- Witness for the amended C8 theorem at the first iteration of a concrete
run: the walk level is the reset value `maxLevel = 9`, inside `[8, 9]`. -/
theorem benchmark_one_query_per_point_witness :
    (8 : Int) ≤ adjLevel 8 9 initBenchState.level
      ∧ adjLevel 8 9 initBenchState.level ≤ 9 :=
  (benchmark_one_query_per_point 4 8 9 1 (fun _ => false) (fun _ => .ok 5 0)
    [(10, 0), (20, 0)] [(20, 0)] initBenchState 10 5 0
    (by decide) rfl rfl rfl (by decide) (by decide)).2

/-! ## The sorted posting index (sstable) reader

Keys are byte strings compared with `bytes.Compare`; values are unsigned
varint object ids.  The sstable is an immutable sorted list of entries; the
iterator's `SeekGE`/`Next` scan over it is `dropWhile`/`takeWhile`. -/

/-- A posting entry: key bytes (a cell token) and value bytes (a varint). -/
abbrev Entry := List Nat × List Nat

/-- `bytes.Compare(a, b) < 0` of Go: lexicographic byte order, a proper
initial segment sorting first. -/
def byteLt : List Nat → List Nat → Bool
  | [], [] => false
  | [], _ :: _ => true
  | _ :: _, [] => false
  | a :: as, b :: bs => if a < b then true else if b < a then false else byteLt as bs

/-- `bytes.Compare(a, b) <= 0` of Go. -/
def byteLe (a b : List Nat) : Bool := !(byteLt b a)

theorem byteLt_trans : ∀ (a b c : List Nat),
    byteLt a b = true → byteLt b c = true → byteLt a c = true := by
  intro a
  induction a with
  | nil =>
    intro b c _ hbc
    cases b with
    | nil =>
      cases c with
      | nil => exact hbc
      | cons z zs => rfl
    | cons y ys =>
      cases c with
      | nil => simp [byteLt] at hbc
      | cons z zs => rfl
  | cons x xs ih =>
    intro b c hab hbc
    cases b with
    | nil => simp [byteLt] at hab
    | cons y ys =>
      cases c with
      | nil => simp [byteLt] at hbc
      | cons z zs =>
        rw [byteLt] at hab hbc ⊢
        by_cases hxy : x < y
        · by_cases hyz : y < z
          · rw [if_pos (by omega : x < z)]
          · rw [if_neg hyz] at hbc
            by_cases hzy : z < y
            · rw [if_pos hzy] at hbc; cases hbc
            · rw [if_neg hzy] at hbc
              have : y = z := by omega
              subst this
              rw [if_pos hxy]
        · rw [if_neg hxy] at hab
          by_cases hyx : y < x
          · rw [if_pos hyx] at hab; cases hab
          · rw [if_neg hyx] at hab
            have hxey : x = y := by omega
            subst hxey
            by_cases hyz : x < z
            · rw [if_pos hyz]
            · rw [if_neg hyz] at hbc ⊢
              by_cases hzy : z < x
              · rw [if_pos hzy] at hbc; cases hbc
              · rw [if_neg hzy] at hbc ⊢
                exact ih ys zs hab hbc

theorem byteLt_connex : ∀ (a b : List Nat),
    byteLt a b = false → byteLt b a = false → a = b := by
  intro a
  induction a with
  | nil =>
    intro b hab _
    cases b with
    | nil => rfl
    | cons y ys => simp [byteLt] at hab
  | cons x xs ih =>
    intro b hab hba
    cases b with
    | nil => simp [byteLt] at hba
    | cons y ys =>
      rw [byteLt] at hab hba
      by_cases hxy : x < y
      · rw [if_pos hxy] at hab; cases hab
      · rw [if_neg hxy] at hab
        by_cases hyx : y < x
        · rw [if_pos hyx] at hba; cases hba
        · rw [if_neg hyx] at hba
          have hxey : x = y := by omega
          subst hxey
          rw [if_neg hxy] at hab hba
          rw [ih ys hab hba]

theorem byteLe_lt_trans (a b c : List Nat)
    (h1 : byteLe a b = true) (h2 : byteLt b c = true) : byteLt a c = true := by
  rw [byteLe] at h1
  have hba : byteLt b a = false := by
    cases h : byteLt b a
    · rfl
    · rw [h] at h1; cases h1
  cases hab : byteLt a b
  · rw [byteLt_connex a b hab hba]; exact h2
  · exact byteLt_trans a b c hab h2

theorem byteLe_trans (a b c : List Nat)
    (h1 : byteLe a b = true) (h2 : byteLe b c = true) : byteLe a c = true := by
  rw [byteLe]
  cases hca : byteLt c a
  · rfl
  · exfalso
    have hba := byteLe_lt_trans b c a h2 hca
    rw [byteLe, hba] at h1
    cases h1

/-- `binary.Uvarint` of Go: decode an unsigned varint, returning the value
and the number of bytes read, or nothing when the buffer is truncated
mid-varint or the value overflows 64 bits (the `n <= 0` outcomes). -/
def uvarintAux : List Nat → Nat → Nat → Nat → Option (Nat × Nat)
  | [], _, _, _ => none
  | b :: bs, i, x, s =>
    if i = 10 then none
    else if b < 128 then
      if i = 9 ∧ 1 < b then none
      else some (x + b * 2 ^ s, i + 1)
    else uvarintAux bs (i + 1) (x + b % 128 * 2 ^ s) (s + 7)

/-- `binary.Uvarint` on a value buffer. -/
def uvarint (buf : List Nat) : Option (Nat × Nat) := uvarintAux buf 0 0 0

/-- The bytes of a token string (tokens are ASCII). -/
def tokenBytes (s : String) : List Nat := s.data.map Char.toNat

/-- The scan lower bound `[]byte(c.RangeMin().ToToken())` of a covering
cell. -/
def cellFirstKey (c : CellID) : List Nat := tokenBytes (toToken (rangeMinNat c))

/-- The scan upper bound `[]byte(c.RangeMax().ToToken())` of a covering
cell. -/
def cellLastKey (c : CellID) : List Nat := tokenBytes (toToken (rangeMaxNat c))

/-- One range scan of the sorted entry list: `SeekGE(first)` positions after
every key below `first`, and the loop consumes entries while `key <= last`. -/
def scanRange (entries : List Entry) (first last : List Nat) : List Entry :=
  (entries.dropWhile (fun e => byteLt e.1 first)).takeWhile (fun e => byteLe e.1 last)

/-- Whether an entry's key lies in the inclusive scan range of a cell. -/
def inRange (c : CellID) (e : Entry) : Bool :=
  byteLe (cellFirstKey c) e.1 && byteLe e.1 (cellLastKey c)

/-- The decoded object id of an entry (defaulting on undecodable values). -/
def entryId (e : Entry) : Nat := ((uvarint e.2).getD (0, 0)).1

/-- The id-set insertion loop of the source: add each id not yet present. -/
def insertIds (ids : List Nat) (m : List Nat) : List Nat :=
  ids.foldl (fun acc id => if id ∈ acc then acc else acc ++ [id]) m

/-- The body of the scan loop of `ReadSST`: decode each value (a malformed
varint aborts), grow the id set, and count every row. -/
def processScan : List Entry → List Nat → Nat → Option (List Nat × Nat)
  | [], m, r => some (m, r)
  | e :: es, m, r =>
    match uvarint e.2 with
    | none => none
    | some (id, _) => processScan es (if id ∈ m then m else m ++ [id]) (r + 1)

/-- The covering loop of `ReadSST`: one range scan per covering cell over
the shared iterator. -/
def readSSTLoop (entries : List Entry) :
    List CellID → List Nat → Nat → Option (List Nat × Nat)
  | [], m, r => some (m, r)
  | c :: cs, m, r =>
    match processScan (scanRange entries (cellFirstKey c) (cellLastKey c)) m r with
    | none => none
    | some (m2, r2) => readSSTLoop entries cs m2 r2

/-- `ReadSST` after the covering is obtained: scan all covering cells, then
close the iterator and report the distinct and raw counts.  The boolean
records whether `iter.Close()` was reached: the source only closes the
iterator after the loop, so the `panic` taken on a malformed varint leaves
it unclosed. -/
def readSST (entries : List Entry) (covering : List CellID) :
    Option (Nat × Nat) × Bool :=
  match readSSTLoop entries covering [] 0 with
  | none => (none, false)
  | some (m, r) => (some (m.length, r), true)

/-- A sorted entry list: keys ascending under `bytes.Compare`. -/
def SortedEntries (l : List Entry) : Prop :=
  l.Pairwise (fun a b => byteLe a.1 b.1 = true)

instance (l : List Entry) : Decidable (SortedEntries l) := by
  unfold SortedEntries; infer_instance

theorem dropWhile_lt_eq_filter (first : List Nat) :
    ∀ (l : List Entry), SortedEntries l →
      l.dropWhile (fun e => byteLt e.1 first)
        = l.filter (fun e => !(byteLt e.1 first)) := by
  intro l
  induction l with
  | nil => intro _; rfl
  | cons a l ih =>
    intro hp
    rw [SortedEntries, List.pairwise_cons] at hp
    cases ha : byteLt a.1 first
    · have hfl : l.filter (fun e => !(byteLt e.1 first)) = l := by
        rw [List.filter_eq_self]
        intro e he
        cases hlt : byteLt e.1 first
        · rfl
        · exfalso
          have h1 : byteLe a.1 e.1 = true := hp.1 e he
          have h2 := byteLe_lt_trans a.1 e.1 first h1 hlt
          rw [h2] at ha
          cases ha
      simp [List.dropWhile_cons, List.filter_cons, ha, hfl]
    · simp [List.dropWhile_cons, List.filter_cons, ha, ih hp.2]

theorem takeWhile_le_eq_filter (last : List Nat) :
    ∀ (l : List Entry), SortedEntries l →
      l.takeWhile (fun e => byteLe e.1 last)
        = l.filter (fun e => byteLe e.1 last) := by
  intro l
  induction l with
  | nil => intro _; rfl
  | cons a l ih =>
    intro hp
    rw [SortedEntries, List.pairwise_cons] at hp
    cases ha : byteLe a.1 last
    · have hfl : l.filter (fun e => byteLe e.1 last) = [] := by
        rw [List.filter_eq_nil_iff]
        intro e he hq
        have h1 := byteLe_trans a.1 e.1 last (hp.1 e he) hq
        rw [h1] at ha
        cases ha
      simp [List.takeWhile_cons, List.filter_cons, ha, hfl]
    · simp [List.takeWhile_cons, List.filter_cons, ha, ih hp.2]

theorem sortedEntries_filter (l : List Entry) (p : Entry → Bool)
    (h : SortedEntries l) : SortedEntries (l.filter p) :=
  h.filter p

/-- On a sorted entry list, the `SeekGE` + bounded scan visits exactly the
entries whose key lies in the inclusive range. -/
theorem scanRange_eq_filter (l : List Entry) (first last : List Nat)
    (h : SortedEntries l) :
    scanRange l first last
      = l.filter (fun e => byteLe first e.1 && byteLe e.1 last) := by
  rw [scanRange, dropWhile_lt_eq_filter first l h,
    takeWhile_le_eq_filter last _ (sortedEntries_filter l _ h),
    List.filter_filter]
  apply List.filter_congr
  intro e _
  rw [byteLe]
  exact Bool.and_comm _ _

theorem mem_insertIds : ∀ (ids m : List Nat) (y : Nat),
    y ∈ insertIds ids m ↔ y ∈ m ∨ y ∈ ids := by
  intro ids
  induction ids with
  | nil => intro m y; simp [insertIds]
  | cons i is ih =>
    intro m y
    rw [insertIds, List.foldl_cons]
    by_cases hi : i ∈ m
    · rw [if_pos hi]
      rw [show List.foldl _ _ is = insertIds is m from rfl, ih]
      simp only [List.mem_cons]
      constructor
      · rintro (h | h)
        · exact Or.inl h
        · exact Or.inr (Or.inr h)
      · rintro (h | h | h)
        · exact Or.inl h
        · exact Or.inl (h ▸ hi)
        · exact Or.inr h
    · rw [if_neg hi]
      rw [show List.foldl _ _ is = insertIds is (m ++ [i]) from rfl, ih]
      simp only [List.mem_append, List.mem_singleton, List.mem_cons]
      tauto

theorem nodup_insertIds : ∀ (ids m : List Nat), m.Nodup → (insertIds ids m).Nodup := by
  intro ids
  induction ids with
  | nil => intro m h; exact h
  | cons i is ih =>
    intro m h
    rw [insertIds, List.foldl_cons]
    by_cases hi : i ∈ m
    · rw [if_pos hi]
      exact ih m h
    · rw [if_neg hi]
      refine ih (m ++ [i]) ?_
      rw [List.nodup_append]
      exact ⟨h, List.nodup_singleton i, by simpa using hi⟩

theorem processScan_eq :
    ∀ (l : List Entry) (m : List Nat) (r : Nat),
      (∀ e ∈ l, (uvarint e.2).isSome = true) →
      processScan l m r = some (insertIds (l.map entryId) m, r + l.length) := by
  intro l
  induction l with
  | nil => intro m r _; simp [processScan, insertIds]
  | cons e es ih =>
    intro m r hdec
    rw [processScan]
    cases hu : uvarint e.2 with
    | none =>
      exfalso
      have := hdec e (List.mem_cons_self e es)
      rw [hu] at this
      cases this
    | some p =>
      obtain ⟨id, n⟩ := p
      have hid : entryId e = id := by rw [entryId, hu]; rfl
      simp only
      rw [ih _ (r + 1) (fun e' he' => hdec e' (List.mem_cons_of_mem e he'))]
      rw [List.map_cons, hid]
      rw [show insertIds (id :: es.map entryId) m
          = insertIds (es.map entryId) (if id ∈ m then m else m ++ [id]) from rfl]
      rw [List.length_cons]
      congr 2
      omega

theorem insertIds_append (xs ys m : List Nat) :
    insertIds (xs ++ ys) m = insertIds ys (insertIds xs m) := by
  rw [insertIds, insertIds, insertIds, List.foldl_append]

theorem readSSTLoop_eq (entries : List Entry)
    (hsort : SortedEntries entries)
    (hdec : ∀ e ∈ entries, (uvarint e.2).isSome = true) :
    ∀ (cov : List CellID) (m : List Nat) (r : Nat),
      readSSTLoop entries cov m r
        = some (insertIds
            (cov.flatMap (fun c => (entries.filter (fun e => inRange c e)).map entryId)) m,
            r + (cov.map (fun c => entries.countP (fun e => inRange c e))).sum) := by
  intro cov
  induction cov with
  | nil => intro m r; simp [readSSTLoop, insertIds]
  | cons c cs ih =>
    intro m r
    rw [readSSTLoop]
    have hscan : scanRange entries (cellFirstKey c) (cellLastKey c)
        = entries.filter (fun e => inRange c e) := by
      rw [scanRange_eq_filter entries _ _ hsort]
      rfl
    rw [hscan, processScan_eq _ m r
      (fun e he => hdec e (List.mem_filter.mp he).1)]
    simp only
    rw [ih]
    rw [List.flatMap_cons, insertIds_append, List.map_cons, List.sum_cons,
      List.countP_eq_length_filter, Nat.add_assoc]

theorem sum_map_countP_cons (cov : List CellID) (e : Entry) (rest : List Entry) :
    (cov.map (fun c => (e :: rest).countP (fun x => inRange c x))).sum
      = (cov.map (fun c => rest.countP (fun x => inRange c x))).sum
        + cov.countP (fun c => inRange c e) := by
  induction cov with
  | nil => rfl
  | cons c cs ih =>
    rw [List.map_cons, List.sum_cons, List.map_cons, List.sum_cons, ih]
    rw [List.countP_cons, List.countP_cons]
    cases h : inRange c e <;>
      simp only [h, Bool.false_eq_true, if_false, if_true] <;> omega

/-- When no entry lies in more than one covering range, the per-cell raw row
counts sum to the number of entries inside some range. -/
theorem countP_sum_eq_countP_any :
    ∀ (entries : List Entry) (cov : List CellID),
      (∀ e ∈ entries, cov.countP (fun c => inRange c e) ≤ 1) →
      (cov.map (fun c => entries.countP (fun e => inRange c e))).sum
        = entries.countP (fun e => cov.any (fun c => inRange c e)) := by
  intro entries
  induction entries with
  | nil => intro cov _; simp
  | cons e rest ih =>
    intro cov hdisj
    rw [sum_map_countP_cons, ih cov (fun x hx => hdisj x (List.mem_cons_of_mem e hx)),
      List.countP_cons]
    congr 1
    have hle := hdisj e (List.mem_cons_self e rest)
    cases hany : cov.any (fun c => inRange c e)
    · simp only [Bool.false_eq_true, if_false]
      rw [List.countP_eq_zero]
      intro c hc
      rw [List.any_eq_false] at hany
      exact hany c hc
    · simp only [if_true]
      rw [List.any_eq_true] at hany
      obtain ⟨c, hc, hin⟩ := hany
      have : 0 < cov.countP (fun c => inRange c e) :=
        List.countP_pos_iff.mpr ⟨c, hc, hin⟩
      omega

theorem length_insertIds_eq_dedup (entries : List Entry) (cov : List CellID) :
    (insertIds
        (cov.flatMap fun c => (entries.filter (fun e => inRange c e)).map entryId)
        []).length
      = ((entries.filter (fun e => cov.any fun c => inRange c e)).map
          entryId).dedup.length := by
  apply List.Perm.length_eq
  apply (List.perm_ext_iff_of_nodup (nodup_insertIds _ _ List.nodup_nil)
    (List.nodup_dedup _)).mpr
  intro y
  rw [mem_insertIds, List.mem_dedup, or_iff_right (List.not_mem_nil y),
    List.mem_flatMap]
  constructor
  · rintro ⟨c, hc, hy⟩
    rw [List.mem_map] at hy
    obtain ⟨e, he, rfl⟩ := hy
    rw [List.mem_filter] at he
    rw [List.mem_map]
    refine ⟨e, ?_, rfl⟩
    rw [List.mem_filter]
    exact ⟨he.1, by rw [List.any_eq_true]; exact ⟨c, hc, he.2⟩⟩
  · intro hy
    rw [List.mem_map] at hy
    obtain ⟨e, he, rfl⟩ := hy
    rw [List.mem_filter] at he
    obtain ⟨he1, hany⟩ := he
    rw [List.any_eq_true] at hany
    obtain ⟨c, hc, hin⟩ := hany
    exact ⟨c, hc, List.mem_map.mpr ⟨e, List.mem_filter.mpr ⟨he1, hin⟩, rfl⟩⟩

/-- The third level-1 child of `cellF0`. -/
def cellF0c2 : CellID := ⟨0, [2]⟩

/-- The index key of a posting entry: the covering cell's own token, as
written by the conversion step. -/
def cellTokenKey (c : CellID) : List Nat := tokenBytes (toToken (cellIdNat c))

/-- An index of postings `{(A,1),(B,2),(C,3)}` with keys `A < B < C`. -/
def exampleABC : List Entry := [([65], [1]), ([66], [2]), ([67], [3])]

/-- Object 7 indexed under the three covering cells `{P,Q,R}` (the three
level-1 children of `cellF0`), all inside the query range of `cellF0`. -/
def exampleDup : List Entry :=
  [(cellTokenKey cellF0c0, [7]), (cellTokenKey cellF0c1, [7]),
    (cellTokenKey cellF0c2, [7])]

/-- Claim C5: on a sorted index whose postings decode and whose covering
ranges do not overlap, a *contains* read reports as distinct count the
number of distinct object ids among the entries whose key lies within
`[rangeMin.token, rangeMax.token]` of some covering cell (both bounds
inclusive), and as raw count the total number of such entries; in
particular the `[A, B]` scan of the `{(A,1),(B,2),(C,3)}` index yields
exactly the ids `{1, 2}`, and an object indexed under three covering cells
inside the query range reports distinct count 1 and raw count 3. -/
theorem readSST_distinct_and_raw_counts :
    ∀ (entries : List Entry) (covering : List CellID),
      SortedEntries entries →
      (∀ e ∈ entries, (uvarint e.2).isSome = true) →
      (∀ e ∈ entries, covering.countP (fun c => inRange c e) ≤ 1) →
      (readSST entries covering
          = (some
              ((((entries.filter (fun e => covering.any fun c => inRange c e)).map
                  entryId).dedup).length,
                entries.countP (fun e => covering.any fun c => inRange c e)), true) ∧
        processScan (scanRange exampleABC [65] [66]) [] 0 = some ([1, 2], 2) ∧
        readSST exampleDup [cellF0] = (some (1, 3), true)) := by
  intro entries covering hsort hdec hdisj
  refine ⟨?_, by decide, by decide⟩
  rw [readSST.eq_def, readSSTLoop_eq entries hsort hdec covering [] 0]
  simp only
  rw [length_insertIds_eq_dedup, countP_sum_eq_countP_any entries covering hdisj,
    Nat.zero_add]

/-- Witness for C5 at the three-posting duplicate index with the one-cell
query covering of their common parent. -/
theorem readSST_distinct_and_raw_counts_witness :
    readSST exampleDup [cellF0]
      = (some
          ((((exampleDup.filter (fun e => [cellF0].any fun c => inRange c e)).map
              entryId).dedup).length,
            exampleDup.countP (fun e => [cellF0].any fun c => inRange c e)), true) :=
  (readSST_distinct_and_raw_counts exampleDup [cellF0]
    (by decide) (by decide) (by decide)).1

/-- An index entry, inside the scan range of `cellF0`, whose value is a
truncated varint (a single continuation byte). -/
def exampleTruncated : List Entry := [(cellTokenKey cellF0c0, [128])]

/-- Claim C9, the divergence: a malformed (truncated) varint posting makes
the read abort through `panic` before the `iter.Close()` call, which is not
deferred, so on that exit path the range-scan iterator opened by `ReadSST`
is never closed — the closed flag of the embedding is `false`. -/
theorem readSST_truncated_varint_leaves_iterator_open :
    uvarint [128] = none ∧ readSST exampleTruncated [cellF0] = (none, false) := by
  decide

/-- The length of the global covering-size counter array
`queryCoveringCounts [20]int64`. -/
def queryCoveringCountsLen : Nat := 20

/-- The guard of `GetCovering`: `true` when `len(covering) >
len(queryCoveringCounts)` does not hold, i.e. when the explicit panic is not
taken. -/
def coveringCountGuardPasses (covLen : Nat) : Bool :=
  !(decide (covLen > queryCoveringCountsLen))

/-- Whether `queryCoveringCounts[covLen]` is an in-bounds access of the
20-element array. -/
def coveringCountIndexInBounds (covLen : Nat) : Bool :=
  decide (covLen < queryCoveringCountsLen)

/-- Twenty distinct cells (one per level 0..19), a covering the policy can
return unchanged under the configured 16-cell soft budget. -/
def twentyCells : List CellID := (List.range 20).map fun n => ⟨0, List.replicate n 0⟩

/-- Claim C10, the divergence: the policy can return a covering of exactly
20 cells (the external coverer's budget is soft), the guard `len(covering) >
20` passes at length 20, and the subsequent `queryCoveringCounts[20]` access
on a `[20]int64` array is out of bounds — the guard is off by one. -/
theorem queryCoveringCounts_update_out_of_bounds :
    twentyCells.length = 20 ∧
      Covering 16 (.other twentyCells) = some twentyCells ∧
      coveringCountGuardPasses twentyCells.length = true ∧
      coveringCountIndexInBounds twentyCells.length = false := by
  decide

end Geospatial
